import Mathlib

/-!
A shallow embedding, in Lean 4, of the source-aggregation and incremental-update
engine of `scripts/update_domains.py` (the pihole blacklist updater), together
with theorems settling the frozen claims about it.

Modelling conventions:

* Python strings are modelled as `List Char` (`Str` below).
* Python `datetime` values are modelled as integers (seconds since an epoch);
  `timedelta(days=d)` is `86400 * d`.  `_parse_iso_timestamp` returns either a
  `datetime` or `None`; a cache-entry timestamp field is therefore modelled as
  `Option Int`, where `none` covers a field that is missing, not a string, or
  fails ISO-8601 parsing.
* Python floats (`weight`, `trust`, retry delays, `Retry-After`) are modelled
  as rationals.
* Fallible operations return `Option`; file side effects of `update` are
  modelled by the ordered event trace `update_write_trace`.
-/

namespace UpdateDomains

/-- Python strings, modelled as lists of characters. -/
abbrev Str := List Char

/-! ## Python string primitives used by `update_domains.py` -/

/-- Python `str.lstrip`-style left strip with a character predicate. -/
def lstripWhile (p : Char → Bool) (s : Str) : Str := s.dropWhile p

/-- Python `str.rstrip`-style right strip with a character predicate. -/
def rstripWhile (p : Char → Bool) (s : Str) : Str := (s.reverse.dropWhile p).reverse

/-- Whitespace test backing Python `str.strip()` (the ASCII fragment, which is
all that the modelled inputs contain). -/
def isSpaceB (c : Char) : Bool := c.isWhitespace

/-- Python `str.strip()`. -/
def pyStrip (s : Str) : Str := rstripWhile isSpaceB (lstripWhile isSpaceB s)

/-! ## Data model: `SourceConfig` and cache entries -/

/-- The `SourceConfig` dataclass of `update_domains.py` (lines 83-100).
The purely descriptive fields `category`, `regions` and `notes` are not read by
any code path modelled here and are omitted. -/
structure SourceConfig where
  name : Str := []
  url : Str := []
  weight : ℚ := 1
  trust : ℚ := 1
  update_interval_days : Int := 1
  sla_days : Option Int := none
  auto_disable_on_sla : Bool := false
  enabled : Bool := true
deriving DecidableEq

/-- The status string `"ok"` stored in source-cache entries. -/
def statusOk : Str := "ok".toList

/-- The status string `"error"` stored in source-cache entries. -/
def statusError : Str := "error".toList

/-- One entry of the source cache (`data/source_cache.json`): the dict shape
produced by `_load_source_cache` (lines 246-278).  `status` is kept as an
arbitrary optional string because `_cache_is_fresh` compares it against
`"error"` only, and an entry loaded from disk may lack the field entirely. -/
structure CacheEntry where
  domains : List Str := []
  fetched_at : Option Int := none
  last_success_at : Option Int := none
  status : Option Str := none
deriving DecidableEq

/-- `_unique_preserve_order` helper loop (lines 54-66): `seen` accumulates the
values already emitted. -/
def uniqueGo (seen : List Str) : List Str → List Str
  | [] => []
  | v :: rest =>
    if seen.contains v then uniqueGo seen rest
    else v :: uniqueGo (v :: seen) rest

/-- `_unique_preserve_order` (lines 54-66): drop duplicates, keeping the first
occurrence of each value. -/
def unique_preserve_order (values : List Str) : List Str := uniqueGo [] values

/-! ## Cache freshness and SLA (source lines 311-345) -/

/-- `_cache_is_fresh` (lines 311-325): an `"error"` entry is never fresh; an
unparseable or missing `fetched_at` is never fresh; otherwise the entry is
fresh while `fetched_at + timedelta(days=max(1, update_interval_days)) > now`. -/
def cache_is_fresh (source : SourceConfig) (cache_entry : CacheEntry) (now : Int) : Bool :=
  if cache_entry.status == some statusError then false
  else
    match cache_entry.fetched_at with
    | none => false
    | some fetched_at =>
      decide (fetched_at + 86400 * max 1 source.update_interval_days > now)

/-- The fallback performed by `_sla_missed` (lines 340-342): the last success
timestamp, substituting `fetched_at` when `last_success_at` is unknown but the
entry's status is `"ok"`. -/
def effective_last_success (entry : CacheEntry) : Option Int :=
  if entry.last_success_at == none && entry.status == some statusOk then entry.fetched_at
  else entry.last_success_at

/-- `_sla_missed` (lines 328-345).  `cache_entry = none` models the absent
entry (Python `if not cache_entry`; entries built by `_load_source_cache`
always carry a `domains` key, so a present entry is a truthy dict). -/
def sla_missed (source : SourceConfig) (cache_entry : Option CacheEntry) (now : Int) : Bool :=
  match source.sla_days with
  | none => false
  | some sla =>
    match cache_entry with
    | none => true
    | some entry =>
      match effective_last_success entry with
      | none => true
      | some last_success => decide (last_success + 86400 * sla < now)

/-! ## Per-source cache refresh performed by `update` (source lines 479-495) -/

/-- The cache entry written for a source that went through the fetch pool in
`update` (lines 479-495): on success the entry holds the deduplicated fetched
domains and fresh `fetched_at`/`last_success_at`; on failure the previous
domains and `last_success_at` are retained while `fetched_at` is refreshed and
the status becomes `"error"`. -/
def refreshed_cache_entry (previous : Option CacheEntry) (success : Bool)
    (domains : List Str) (now : Int) : CacheEntry :=
  let deduplicated := unique_preserve_order domains
  if success then
    { domains := deduplicated
      fetched_at := some now
      status := some statusOk
      last_success_at := some now }
  else
    { domains := (previous.map CacheEntry.domains).getD []
      fetched_at := some now
      status := some statusError
      last_success_at := previous.bind CacheEntry.last_success_at }

/-! ## Side-effect trace of `update` (source lines 381-583) -/

/-- The five files `update` can write, in the vocabulary of the claims:
the source cache (`_store_source_cache`, line 504), the canonical list
(`dest.write_text`, line 525), the JSON report (`_write_report`, line 565),
the Markdown summary (`_write_markdown_report`, line 578) and the
domain-status ledger (`_update_status`, line 579). -/
inductive WriteEvent
  | cacheFile
  | listFile
  | reportFile
  | markdownFile
  | statusFile
deriving DecidableEq

/-- The ordered sequence of file writes performed by one run of `update`,
as a function of the branch conditions of lines 413, 504, 518-525 and 565-583:
`has_sources` is `configured_sources` being non-empty (line 413),
`needs_rewrite_initial` is the `needs_rewrite` flag accumulated while reading
the existing list (lines 417-446), `has_new_domains` is `new_domains` being
non-empty (line 517), and the remaining flags are `skipped_due_sla` and
`had_fetch_errors`.  Line 519 folds `has_new_domains` into `needs_rewrite`
before the early return of line 520 and the conditional list write of 524. -/
def update_write_trace (has_sources needs_rewrite_initial has_new_domains
    has_skipped_sla had_fetch_errors : Bool) : List WriteEvent :=
  if !has_sources then []
  else
    let needs_rewrite := needs_rewrite_initial || has_new_domains
    WriteEvent.cacheFile ::
      (if !has_new_domains && !needs_rewrite && !has_skipped_sla && !had_fetch_errors then []
       else
         (if has_new_domains || needs_rewrite then [WriteEvent.listFile] else []) ++
           [WriteEvent.reportFile, WriteEvent.markdownFile, WriteEvent.statusFile])

/-! ## Claim C1: side-effect ordering -/

/-- C1 counterexample: in a run that needs a rewrite (here: new domains exist
and the existing file needed normalisation), the cache file is written first
and the canonical list only second, so the claimed order "canonical list first,
then the cache" is false, as is "the cache is never written before the
canonical list". -/
theorem c1_counterexample :
    update_write_trace true true true false false =
      [WriteEvent.cacheFile, WriteEvent.listFile, WriteEvent.reportFile,
        WriteEvent.markdownFile, WriteEvent.statusFile] ∧
    (update_write_trace true true true false false).indexOf WriteEvent.cacheFile <
      (update_write_trace true true true false false).indexOf WriteEvent.listFile := by
  decide

/-- C1 (amended): within one run of `update`, when a rewrite is needed the side
effects occur in this order: the source cache is written first, then the
canonical list file, then the JSON report, then the Markdown summary, then the
domain-status ledger; the canonical list is never written before the cache. -/
theorem c1_write_order (hs nr nd sk fe : Bool) (hsrc : hs = true)
    (hrw : (nr || nd) = true) :
    update_write_trace hs nr nd sk fe =
      [WriteEvent.cacheFile, WriteEvent.listFile, WriteEvent.reportFile,
        WriteEvent.markdownFile, WriteEvent.statusFile] := by
  subst hsrc
  cases nr <;> cases nd <;> cases sk <;> cases fe <;> revert hrw <;> decide

/-- C1 witness: the amended ordering at a concrete run (rewrite needed). -/
theorem c1_write_order_witness :
    update_write_trace true false true true true =
      [WriteEvent.cacheFile, WriteEvent.listFile, WriteEvent.reportFile,
        WriteEvent.markdownFile, WriteEvent.statusFile] :=
  c1_write_order true false true true true rfl (by decide)

/-! ## Claim C3: cache freshness rule -/

/-- A source with the default one-day TTL. -/
def freshSourceC3 : SourceConfig := { update_interval_days := 1 }

/-- A cache entry with a current `fetched_at` but no `status` field at all. -/
def freshEntryC3 : CacheEntry := { fetched_at := some 0 }

/-- C3 counterexample: an entry whose `status` field is missing (so in
particular not `"ok"`) is nevertheless fresh when its `fetched_at` is recent —
the code only rejects an explicit `"error"` status, so freshness is not
equivalent to `status = "ok" ∧ fetched_at + ttl > now`. -/
theorem c3_counterexample :
    cache_is_fresh freshSourceC3 freshEntryC3 0 = true ∧
    freshEntryC3.status ≠ some statusOk := by
  decide

/-- C3 (amended): `_cache_is_fresh` returns true iff the entry's status is not
`"error"` (an `"ok"` status or a missing/other status both qualify) and
`fetched_at` is present and satisfies
`fetched_at + max(1, update_interval_days) days > now`; in particular an
`"error"` entry, or one with a missing or unparseable `fetched_at`, is never
fresh. -/
theorem c3_cache_is_fresh_characterization (source : SourceConfig)
    (entry : CacheEntry) (now : Int) :
    cache_is_fresh source entry now = true ↔
      (entry.status ≠ some statusError ∧
        ∃ t, entry.fetched_at = some t ∧
          now < t + 86400 * max 1 source.update_interval_days) := by
  by_cases hs : entry.status = some statusError
  · simp [cache_is_fresh, hs]
  · have hb : (entry.status == some statusError) = false := by
      simp [hs]
    cases hf : entry.fetched_at with
    | none => simp [cache_is_fresh, hb, hf, hs]
    | some t =>
      simp only [cache_is_fresh, hb, Bool.false_eq_true, if_false, hf,
        decide_eq_true_eq]
      constructor
      · intro h
        exact ⟨hs, t, rfl, h⟩
      · rintro ⟨-, t', ht', h⟩
        cases ht'
        exact h

/-! ## Claim C4: SLA rule -/

/-- A source with a seven-day SLA. -/
def slaSourceC4 : SourceConfig := { sla_days := some 7 }

/-- An entry that has never recorded `last_success_at` but carries an `"ok"`
status and a current `fetched_at`. -/
def slaEntryC4 : CacheEntry := { fetched_at := some 0, status := some statusOk }

/-- C4 counterexample: `sla_days` is configured and `last_success_at` is
unknown, so the claim says the SLA is missed, but `_sla_missed` falls back to
`fetched_at` when the status is `"ok"` and reports the SLA as met — the
`status` and `fetched_at` fields do affect the result. -/
theorem c4_counterexample :
    sla_missed slaSourceC4 (some slaEntryC4) 0 = false ∧
    slaEntryC4.last_success_at = none ∧
    slaSourceC4.sla_days = some 7 := by
  decide

/-- C4 (amended): `_sla_missed` returns true iff `sla_days` is configured and
(the cache entry is absent, or its effective last-success timestamp — which is
`last_success_at`, falling back to `fetched_at` when `last_success_at` is
unknown and the status is `"ok"` — is unknown or older than `sla_days` days
before `now`). -/
theorem c4_sla_missed_characterization (source : SourceConfig)
    (entry : Option CacheEntry) (now : Int) :
    sla_missed source entry now = true ↔
      (∃ sla, source.sla_days = some sla ∧
        (entry = none ∨
          ∃ e, entry = some e ∧
            (effective_last_success e = none ∨
              ∃ t, effective_last_success e = some t ∧ t + 86400 * sla < now))) := by
  cases hsla : source.sla_days with
  | none => simp [sla_missed, hsla]
  | some sla =>
    cases he : entry with
    | none => simp [sla_missed, hsla, he]
    | some e =>
      cases hls : effective_last_success e with
      | none => simp [sla_missed, hsla, he, hls]
      | some t => simp [sla_missed, hsla, he, hls]

/-! ## Claim C5: failed fetches preserve cache knowledge -/

/-- C5: for a source whose fetch fails, the refreshed cache entry keeps the
previous entry's `domains` and `last_success_at` unchanged while `fetched_at`
becomes `now` and the status becomes `"error"`; with no previous entry the
failed fetch stores an empty domain list; and the stored `domains` value can
differ from the previous one only when the fetch succeeded. -/
theorem c5_failed_fetch_preserves_cache (previous : CacheEntry)
    (domains : List Str) (now : Int) :
    (refreshed_cache_entry (some previous) false domains now).domains = previous.domains ∧
    (refreshed_cache_entry (some previous) false domains now).last_success_at =
      previous.last_success_at ∧
    (refreshed_cache_entry (some previous) false domains now).fetched_at = some now ∧
    (refreshed_cache_entry (some previous) false domains now).status = some statusError ∧
    (refreshed_cache_entry none false domains now).domains = [] ∧
    (∀ success,
      (refreshed_cache_entry (some previous) success domains now).domains ≠ previous.domains →
        success = true) := by
  refine ⟨rfl, rfl, rfl, rfl, rfl, ?_⟩
  intro success h
  cases success with
  | true => rfl
  | false => exact absurd rfl h

/-! ## Retry-aware fetcher `_read_source` (source lines 180-221) -/

/-- `MAX_RETRIES` (line 23). -/
def MAX_RETRIES : Nat := 3

/-- `RETRYABLE_STATUS` (line 24). -/
def RETRYABLE_STATUS : List Nat := [429, 500, 502, 503, 504]

/-- One attempt's outcome as seen by `_read_source`: a decoded body, an
`HTTPError` with its status code and `Retry-After` header (`none` = no header,
`some none` = a header that does not parse as a float, `some (some q)` = a
header parsing to `q`), or a transport-level failure (`URLError` or
`IncompleteRead`). -/
inductive FetchOutcome
  | success (body : Str)
  | httpError (code : Nat) (retryAfter : Option (Option ℚ))
  | transportError
deriving DecidableEq

/-- `_retry_delay` (lines 180-196): take the parsed `Retry-After` header into
account, never waiting less than the computed exponential backoff. -/
def retry_delay (base_delay : ℚ) (retryAfter : Option (Option ℚ)) : ℚ :=
  match retryAfter with
  | some (some parsed) => max parsed base_delay
  | _ => base_delay

/-- What one call of `_read_source` did: its return value, how many attempts
it made, and the sleeps (in order) between attempts. -/
structure FetchTrace where
  result : Option Str
  attempts : Nat
  waits : List ℚ
deriving DecidableEq

/-- The `for attempt in range(MAX_RETRIES)` loop of `_read_source`
(lines 205-221), with `fuel` the number of loop iterations left,
`attempt` the current index, and `waits` the sleeps so far (reversed). -/
def read_source_go (outcome : Nat → FetchOutcome) (attempt fuel : Nat)
    (delay : ℚ) (waits : List ℚ) : FetchTrace :=
  match fuel with
  | 0 => { result := none, attempts := attempt, waits := waits.reverse }
  | fuel' + 1 =>
    match outcome attempt with
    | FetchOutcome.success body =>
      { result := some body, attempts := attempt + 1, waits := waits.reverse }
    | FetchOutcome.httpError code retryAfter =>
      if !(RETRYABLE_STATUS.contains code) || attempt + 1 ≥ MAX_RETRIES then
        { result := none, attempts := attempt + 1, waits := waits.reverse }
      else
        let d := retry_delay delay retryAfter
        read_source_go outcome (attempt + 1) fuel' (d * 2) (d :: waits)
    | FetchOutcome.transportError =>
      if attempt + 1 ≥ MAX_RETRIES then
        { result := none, attempts := attempt + 1, waits := waits.reverse }
      else
        read_source_go outcome (attempt + 1) fuel' (delay * 2) (delay :: waits)

/-- `_read_source` (lines 199-221): up to `MAX_RETRIES` attempts, starting
with a one-unit backoff.  The function is total — the Python code returns the
body or `None` and never propagates an exception. -/
def read_source (outcome : Nat → FetchOutcome) : FetchTrace :=
  read_source_go outcome 0 MAX_RETRIES 1 []

/-- The attempt counter of the retry loop never exceeds the starting index
plus the remaining fuel. -/
theorem read_source_go_attempts_le (fuel : Nat) :
    ∀ (outcome : Nat → FetchOutcome) (attempt : Nat) (delay : ℚ) (waits : List ℚ),
      (read_source_go outcome attempt fuel delay waits).attempts ≤ attempt + fuel := by
  induction fuel with
  | zero => intro outcome attempt delay waits; simp [read_source_go]
  | succ fuel' ih =>
    intro outcome attempt delay waits
    unfold read_source_go
    cases outcome attempt with
    | success body => simp
    | httpError code retryAfter =>
      dsimp only
      split
      · simp
      · calc (read_source_go outcome (attempt + 1) fuel'
                (retry_delay delay retryAfter * 2) (retry_delay delay retryAfter :: waits)).attempts
            ≤ attempt + 1 + fuel' := ih outcome (attempt + 1) _ _
          _ = attempt + (fuel' + 1) := by omega
    | transportError =>
      dsimp only
      split
      · simp
      · calc (read_source_go outcome (attempt + 1) fuel' (delay * 2) (delay :: waits)).attempts
            ≤ attempt + 1 + fuel' := ih outcome (attempt + 1) _ _
          _ = attempt + (fuel' + 1) := by omega

/-! ## Claim C7: retry policy of `_read_source` -/

/-- C7: when the first attempt fails with HTTP 429 (with a parseable
`Retry-After` of `r`) and the second succeeds, exactly two attempts are made
and the single wait is `max r 1`, which is at least the advertised value and
at least the computed backoff (1); moreover for any outcome sequence at most
`MAX_RETRIES = 3` attempts are ever made, and a first attempt failing with a
non-retryable HTTP status ends the call immediately with no data and no wait. -/
theorem c7_read_source_retry (out : Nat → FetchOutcome) (r : ℚ) (body : Str)
    (h0 : out 0 = FetchOutcome.httpError 429 (some (some r)))
    (h1 : out 1 = FetchOutcome.success body) :
    read_source out = { result := some body, attempts := 2, waits := [max r 1] } ∧
    r ≤ max r 1 ∧ (1 : ℚ) ≤ max r 1 ∧
    (∀ out2 : Nat → FetchOutcome, (read_source out2).attempts ≤ MAX_RETRIES) ∧
    (∀ (out3 : Nat → FetchOutcome) (code : Nat) (ra : Option (Option ℚ)),
      out3 0 = FetchOutcome.httpError code ra →
      RETRYABLE_STATUS.contains code = false →
      read_source out3 = { result := none, attempts := 1, waits := [] }) := by
  refine ⟨?_, le_max_left r 1, le_max_right r 1, ?_, ?_⟩
  · show read_source_go out 0 MAX_RETRIES 1 [] = _
    simp [read_source_go, h0, h1, retry_delay, MAX_RETRIES, RETRYABLE_STATUS]
  · intro out2
    exact read_source_go_attempts_le MAX_RETRIES out2 0 1 []
  · intro out3 code ra h3 hcode
    show read_source_go out3 0 MAX_RETRIES 1 [] = _
    have hmem : code ∉ RETRYABLE_STATUS := by simpa using hcode
    unfold read_source_go
    rw [h3]
    simp [hmem, MAX_RETRIES]

/-- A concrete outcome sequence: HTTP 429 advertising `Retry-After: 2`, then a
successful body. -/
def outcomesC7 : Nat → FetchOutcome
  | 0 => FetchOutcome.httpError 429 (some (some 2))
  | _ => FetchOutcome.success ['x']

/-- C7 witness: the retry scenario evaluated on `outcomesC7`. -/
theorem c7_read_source_retry_witness :
    read_source outcomesC7 = { result := some ['x'], attempts := 2, waits := [max 2 1] } :=
  (c7_read_source_retry outcomesC7 2 ['x'] rfl rfl).1

/-! ## Lexicographic string order shared by the ranking and reporting code -/

/-- Python string `<=` (code-point lexicographic, a prefix sorting first),
which is the `List Char` lexicographic linear order. -/
def strLeB (a b : Str) : Bool := decide (a ≤ b)

/-- Python `sorted` on a list of strings. -/
def pySortedStr (l : List Str) : List Str := l.mergeSort strLeB

/-! ## The domain-status ledger `_update_status` (source lines 754-787) -/

/-- The `"active"` lifecycle status. -/
def statusActive : Str := "active".toList

/-- The `"stale"` lifecycle status. -/
def statusStale : Str := "stale".toList

/-- The `"removed"` lifecycle status. -/
def statusRemoved : Str := "removed".toList

/-- One record of `data/domain_status.json`.  Field values are kept as opaque
optional strings (the code never parses them, only copies and overwrites). -/
structure DomainInfo where
  first_seen : Option Str := none
  last_seen : Option Str := none
  status : Option Str := none
  sources : Option (List Str) := none
  removed_at : Option Str := none
deriving DecidableEq

/-- The new ledger record for one domain, following `_update_status`
(lines 767-785): domains in `merged` get `first_seen` defaulted (via
`setdefault`) and are marked `active` (when some source reports them, with the
sorted set of source names) or `stale`; domains that left the canonical list
are marked `removed` with a `removed_at` timestamp. -/
def update_status_entry (timestamp : Str) (old : Option DomainInfo)
    (in_merged : Bool) (src_names : Option (List Str)) : Option DomainInfo :=
  if in_merged then
    let info := old.getD {}
    let first_seen := info.first_seen.getD timestamp
    match src_names with
    | some names =>
      some { info with
        first_seen := some first_seen
        last_seen := some timestamp
        status := some statusActive
        sources := some (pySortedStr (unique_preserve_order names)) }
    | none =>
      some { info with
        first_seen := some first_seen
        last_seen := some (info.last_seen.getD first_seen)
        status := some statusStale }
  else
    match old with
    | some info =>
      some { info with status := some statusRemoved, removed_at := some timestamp }
    | none => none

/-- `_update_status` (lines 754-787) as a map transformer.  The Python loops
mutate each key of `status_data` independently (`merged` is a sorted set, so
its elements are distinct), which this pointwise reading captures. -/
def update_status (timestamp : Str) (old : Str → Option DomainInfo)
    (merged : List Str) (domain_sources : Str → Option (List Str)) :
    Str → Option DomainInfo :=
  fun domain =>
    update_status_entry timestamp (old domain) (merged.contains domain)
      (domain_sources domain)

/-! ## Claim C9: `first_seen` is never changed once set -/

/-- C9: every domain that already has a `first_seen` value in the ledger keeps
that identical value after `_update_status`, whether the domain ends up
active, stale or removed. -/
theorem c9_first_seen_preserved (timestamp : Str) (old : Str → Option DomainInfo)
    (merged : List Str) (domain_sources : Str → Option (List Str))
    (domain : Str) (info : DomainInfo) (v : Str)
    (hold : old domain = some info) (hfs : info.first_seen = some v) :
    ∃ info2, update_status timestamp old merged domain_sources domain = some info2 ∧
      info2.first_seen = some v := by
  unfold update_status update_status_entry
  rw [hold]
  by_cases hm : merged.contains domain
  · simp only [hm, if_true]
    cases domain_sources domain with
    | some names => exact ⟨_, rfl, by simp [hfs]⟩
    | none => exact ⟨_, rfl, by simp [hfs]⟩
  · simp only [hm, Bool.false_eq_true, if_false]
    exact ⟨_, rfl, hfs⟩

/-- A one-domain ledger for the C9 witness. -/
def oldLedgerC9 : Str → Option DomainInfo :=
  fun d => if d = "a".toList then some { first_seen := some "t0".toList } else none

/-- C9 witness: a domain first seen at `t0` keeps that value through an update
at `t1` in which it is still merged but reported by no source. -/
theorem c9_first_seen_preserved_witness :
    ∃ info2,
      update_status "t1".toList oldLedgerC9 ["a".toList] (fun _ => none) "a".toList =
        some info2 ∧
      info2.first_seen = some "t0".toList :=
  c9_first_seen_preserved "t1".toList oldLedgerC9 ["a".toList] (fun _ => none)
    "a".toList { first_seen := some "t0".toList } "t0".toList (by decide) rfl

/-! ## Order lemmas shared by the ranking and reporting proofs -/

/-- String `≤` is total. -/
theorem strLeB_total (a b : Str) : (strLeB a b || strLeB b a) = true := by
  simp only [strLeB, Bool.or_eq_true, decide_eq_true_eq]
  exact le_total a b

/-- String `≤` is transitive. -/
theorem strLeB_trans (a b c : Str) (h1 : strLeB a b = true) (h2 : strLeB b c = true) :
    strLeB a c = true := by
  simp only [strLeB, decide_eq_true_eq] at h1 h2 ⊢
  exact le_trans h1 h2

/-- Every element of the first `n` entries of a sorted list is `le`-below
every list element outside those entries. -/
theorem mergeSort_take_dominates {α : Type} (le : α → α → Bool)
    (htrans : ∀ a b c, le a b = true → le b c = true → le a c = true)
    (htot : ∀ a b, (le a b || le b a) = true)
    (l : List α) (n : Nat) (d e : α)
    (hd : d ∈ (l.mergeSort le).take n)
    (he : e ∈ l) (hne : e ∉ (l.mergeSort le).take n) :
    le d e = true := by
  have hsorted : List.Pairwise (fun a b => le a b = true) (l.mergeSort le) :=
    List.sorted_mergeSort htrans htot l
  have hperm : List.Perm (l.mergeSort le) l := List.mergeSort_perm l le
  have he2 : e ∈ l.mergeSort le := hperm.mem_iff.mpr he
  have hsplit : (l.mergeSort le).take n ++ (l.mergeSort le).drop n = l.mergeSort le :=
    List.take_append_drop n (l.mergeSort le)
  have he3 : e ∈ (l.mergeSort le).drop n := by
    rcases List.mem_append.mp (by rw [hsplit]; exact he2) with h | h
    · exact absurd h hne
    · exact h
  have hsorted2 : List.Pairwise (fun a b => le a b = true)
      ((l.mergeSort le).take n ++ (l.mergeSort le).drop n) := by
    rw [hsplit]; exact hsorted
  exact (List.pairwise_append.mp hsorted2).2.2 d hd e he3

/-! ## Candidate ranking and batch selection (source lines 506-517) -/

/-- Python `max(generator, default=0.0)`: the maximum of a list of rationals,
or `0` when the list is empty. -/
def pyMaxDefault0 (l : List ℚ) : ℚ :=
  match l with
  | [] => 0
  | x :: xs => xs.foldl max x

/-- The ranking score of a candidate domain (line 510-513):
`max(src.weight * src.trust for src in domain_sources.get(item, []))` with
default `0.0`. -/
def score (domain_sources : Str → List SourceConfig) (d : Str) : ℚ :=
  pyMaxDefault0 ((domain_sources d).map (fun src => src.weight * src.trust))

/-- The comparator realised by `sorted(..., key=lambda item: (-score, item))`
(lines 507-516): descending score, ties broken by ascending lexicographic
domain order. -/
def rank_le (domain_sources : Str → List SourceConfig) (a b : Str) : Bool :=
  decide (score domain_sources b < score domain_sources a) ||
    (decide (score domain_sources a = score domain_sources b) && strLeB a b)

/-- `scored = sorted(new_candidates, key=...)` followed by
`new_domains = scored[:chunk_size]` (lines 507-517).  Lean's `mergeSort` and
Python's `sorted` are both stable, so they agree exactly. -/
def select_new_domains (domain_sources : Str → List SourceConfig)
    (new_candidates : List Str) (chunk_size : Nat) : List Str :=
  (new_candidates.mergeSort (rank_le domain_sources)).take chunk_size

/-- The ranking comparator is total. -/
theorem rank_le_total (ds : Str → List SourceConfig) (a b : Str) :
    (rank_le ds a b || rank_le ds b a) = true := by
  simp only [rank_le, Bool.or_eq_true, Bool.and_eq_true, decide_eq_true_eq]
  rcases lt_trichotomy (score ds a) (score ds b) with h | h | h
  · right; left; exact h
  · have htot2 : strLeB a b = true ∨ strLeB b a = true := by
      simpa using strLeB_total a b
    rcases htot2 with hs | hs
    · left; right; exact ⟨h, hs⟩
    · right; right; exact ⟨h.symm, hs⟩
  · left; left; exact h

/-- The ranking comparator is transitive. -/
theorem rank_le_trans (ds : Str → List SourceConfig) (a b c : Str)
    (h1 : rank_le ds a b = true) (h2 : rank_le ds b c = true) :
    rank_le ds a c = true := by
  simp only [rank_le, Bool.or_eq_true, Bool.and_eq_true, decide_eq_true_eq] at h1 h2 ⊢
  rcases h1 with h1 | ⟨h1e, h1s⟩
  · rcases h2 with h2 | ⟨h2e, h2s⟩
    · left; exact lt_trans h2 h1
    · left; rw [← h2e]; exact h1
  · rcases h2 with h2 | ⟨h2e, h2s⟩
    · left; rw [h1e]; exact h2
    · right; exact ⟨h1e.trans h2e, strLeB_trans a b c h1s h2s⟩

/-! ## Claim C6: batch bound and selection order -/

/-- C6: with `chunk_size = n` and more than `n` new candidates, exactly `n`
domains are selected; each selected domain is a candidate; the selection is
ordered by descending score with lexicographic tie-break; and every selected
domain ranks at or above every candidate left out. -/
theorem c6_batch_bound (ds : Str → List SourceConfig) (cands : List Str) (n : Nat)
    (hlen : n < cands.length) :
    (select_new_domains ds cands n).length = n ∧
    (∀ d ∈ select_new_domains ds cands n, d ∈ cands) ∧
    List.Pairwise (fun a b => rank_le ds a b = true) (select_new_domains ds cands n) ∧
    (∀ d ∈ select_new_domains ds cands n, ∀ e ∈ cands,
      e ∉ select_new_domains ds cands n → rank_le ds d e = true) := by
  have hperm : List.Perm (cands.mergeSort (rank_le ds)) cands :=
    List.mergeSort_perm cands (rank_le ds)
  refine ⟨?_, ?_, ?_, ?_⟩
  · unfold select_new_domains
    rw [List.length_take, hperm.length_eq]
    omega
  · intro d hd
    exact hperm.mem_iff.mp (List.mem_of_mem_take hd)
  · exact (List.sorted_mergeSort (rank_le_trans ds) (rank_le_total ds)
      cands).sublist (List.take_sublist n _)
  · intro d hd e he hne
    exact mergeSort_take_dominates (rank_le ds) (rank_le_trans ds) (rank_le_total ds)
      cands n d e hd he hne

/-- A two-candidate pool for the C6 witness: `b.com` is reported by a
weight-2 source, `a.com` by nobody. -/
def dsC6 : Str → List SourceConfig :=
  fun d => if d = "b.com".toList then [{ weight := 2, trust := 1 }] else []

/-- C6 witness: with `chunk_size = 1` and two candidates, exactly one domain
is selected. -/
theorem c6_batch_bound_witness :
    (select_new_domains dsC6 ["a.com".toList, "b.com".toList] 1).length = 1 :=
  (c6_batch_bound dsC6 ["a.com".toList, "b.com".toList] 1 (by decide)).1

/-! ## Claim C10: stale-candidate cap in the report -/

/-- `stale_candidates=sorted(existing - fetched)[:50]` (line 570): the domains
of the canonical set reported by no source this run, sorted, truncated to 50.
The Python sets are modelled by lists (`existing` is built without duplicates
in `update`, lines 425-446). -/
def stale_candidates (existing fetched : List Str) : List Str :=
  (pySortedStr (existing.filter (fun d => !fetched.contains d))).take 50

/-- `_write_report` stores the field only when the list is non-empty
(lines 611-612: `if stale_candidates: payload[...] = ...`). -/
def report_has_stale_candidates (stale : List Str) : Bool := !stale.isEmpty

/-- C10: the report's `stale_candidates` holds at most 50 domains — each in
the existing canonical set and reported by no source, listed in ascending
lexicographic order, and every listed domain sorts at or below every unlisted
stale domain (so they are the lexicographically smallest ones) — and the field
is present in the report exactly when the stale set is non-empty. -/
theorem c10_stale_candidates_cap (existing fetched : List Str) :
    (stale_candidates existing fetched).length ≤ 50 ∧
    (∀ d ∈ stale_candidates existing fetched, d ∈ existing ∧ d ∉ fetched) ∧
    List.Pairwise (fun a b => strLeB a b = true) (stale_candidates existing fetched) ∧
    (∀ d ∈ stale_candidates existing fetched, ∀ e ∈ existing, e ∉ fetched →
      e ∉ stale_candidates existing fetched → strLeB d e = true) ∧
    (report_has_stale_candidates (stale_candidates existing fetched) = true ↔
      existing.filter (fun d => !fetched.contains d) ≠ []) := by
  set diff := existing.filter (fun d => !fetched.contains d) with hdiff
  have hperm : List.Perm (diff.mergeSort strLeB) diff := List.mergeSort_perm diff strLeB
  have hmem : ∀ d, d ∈ stale_candidates existing fetched → d ∈ existing ∧ d ∉ fetched := by
    intro d hd
    have hd2 : d ∈ diff := hperm.mem_iff.mp (List.mem_of_mem_take hd)
    have h3 := List.mem_filter.mp hd2
    refine ⟨h3.1, ?_⟩
    intro hmem2
    have h4 := h3.2
    simp [hmem2] at h4
  refine ⟨?_, hmem, ?_, ?_, ?_⟩
  · unfold stale_candidates
    rw [List.length_take]
    exact min_le_left _ _
  · exact (List.sorted_mergeSort strLeB_trans strLeB_total diff).sublist
      (List.take_sublist 50 _)
  · intro d hd e he hef hne
    have he2 : e ∈ diff := by
      rw [hdiff]
      refine List.mem_filter.mpr ⟨he, ?_⟩
      simp [hef]
    exact mergeSort_take_dominates strLeB strLeB_trans strLeB_total diff 50 d e hd he2 hne
  · have key : ∀ l : List Str, (!l.isEmpty) = true ↔ l.length ≠ 0 := by
      intro l
      cases l <;> simp
    have hlen : ((pySortedStr diff).take 50).length = min 50 diff.length := by
      unfold pySortedStr
      rw [List.length_take, hperm.length_eq]
    constructor
    · intro h hnil
      unfold report_has_stale_candidates stale_candidates at h
      rw [← hdiff, key, hlen, hnil] at h
      simp at h
    · intro h
      unfold report_has_stale_candidates stale_candidates
      rw [← hdiff, key, hlen]
      have hne0 : diff.length ≠ 0 := fun h0 => h (List.length_eq_zero.mp h0)
      omega

/-! ## Percent-decoding and `ipaddress` literal parsing

`_clean_domain` calls `urllib.parse.unquote` and `ipaddress.ip_address`; both
library functions are embedded below following their CPython implementations. -/

/-- The hexadecimal-digit set `0123456789abcdefABCDEF` (CPython
`_HEX_DIGITS`). -/
def isHexDigitB (c : Char) : Bool :=
  c.isDigit || ('a' ≤ c && c ≤ 'f') || ('A' ≤ c && c ≤ 'F')

/-- Value of one hexadecimal digit. -/
def hexDigitVal (c : Char) : Nat :=
  if c.isDigit then c.toNat - 48
  else if 'a' ≤ c && c ≤ 'f' then c.toNat - 87
  else c.toNat - 55

/-- `urllib.parse.unquote`: each valid `%XX` escape is decoded, an invalid
escape is passed through literally.  Caveat: CPython decodes the escaped bytes
as UTF-8 with replacement characters, while this model maps each byte to the
code point of its value; the two agree on escapes below `0x80`, and every
theorem below only ever evaluates `pyUnquote` on strings without `%`, where
both are the identity. -/
def pyUnquote : Str → Str
  | [] => []
  | '%' :: a :: b :: rest =>
    if isHexDigitB a && isHexDigitB b then
      Char.ofNat (16 * hexDigitVal a + hexDigitVal b) :: pyUnquote rest
    else '%' :: pyUnquote (a :: b :: rest)
  | c :: rest => c :: pyUnquote rest

/-- Python `str.split(sep)` for a one-character separator: always returns at
least one (possibly empty) part. -/
def splitOnChar (sep : Char) : Str → List Str
  | [] => [[]]
  | c :: rest =>
    if c = sep then [] :: splitOnChar sep rest
    else
      match splitOnChar sep rest with
      | p :: ps => (c :: p) :: ps
      | [] => [[c]]

/-- Python `str.partition('%')`: the text before the first `%`, and the rest
after it (`none` when there is no `%`). -/
def partitionAfterPercent : Str → Str × Option Str
  | [] => ([], none)
  | c :: rest =>
    if c = '%' then ([], some rest)
    else
      let r := partitionAfterPercent rest
      (c :: r.1, r.2)

/-- Decimal value of a digit string. -/
def decimalVal (p : Str) : Nat := p.foldl (fun acc c => acc * 10 + (c.toNat - 48)) 0

/-- CPython `IPv4Address._parse_octet`: non-empty, ASCII digits only, at most
3 characters, no leading zero (except `"0"` itself), value at most 255. -/
def octetValid (p : Str) : Bool :=
  !p.isEmpty && p.all Char.isDigit && p.length ≤ 3 &&
  (p == ['0'] || p.head? != some '0') && decimalVal p ≤ 255

/-- CPython `IPv4Address.__init__` on a string: reject `/`, reject the empty
string, then split on `.` into exactly four valid octets. -/
def ipv4AddrValid (s : Str) : Bool :=
  !s.contains '/' && !s.isEmpty &&
  (let octets := splitOnChar '.' s
   octets.length == 4 && octets.all octetValid)

/-- The 32-bit value of a (valid) dotted-quad string. -/
def ipv4Value (s : Str) : Nat :=
  (splitOnChar '.' s).foldl (fun acc p => acc * 256 + decimalVal p) 0

/-- CPython `IPv6Address._parse_hextet`: hexadecimal digits only, at most four
of them, and non-empty (`int('', 16)` raises). -/
def hextetValid (p : Str) : Bool := p.all isHexDigitB && p.length ≤ 4 && !p.isEmpty

/-- The IPv4-in-IPv6 step of `_ip_int_from_string`: when the last part
contains a dot it must be a valid IPv4 address and is replaced by its two
hextets (rendered like `'%x' % value`). -/
def ipv6PartsAfterEmbed (parts : List Str) : Option (List Str) :=
  match parts.getLast? with
  | none => none
  | some last =>
    if last.contains '.' then
      if ipv4AddrValid last then
        some (parts.dropLast ++
          [Nat.toDigits 16 (ipv4Value last / 65536), Nat.toDigits 16 (ipv4Value last % 65536)])
      else none
    else some parts

/-- Index of the first empty string in a list of parts. -/
def firstEmptyIdx : List Str → Option Nat
  | [] => none
  | p :: rest => if p.isEmpty then some 0 else (firstEmptyIdx rest).map (· + 1)

/-- The hextet/`::` analysis of CPython `IPv6Address._ip_int_from_string`
after the IPv4 embedding step: without `::` there must be exactly eight
non-empty hextets; with one `::` (an empty part away from the ends, at
`parts` index `j + 1`) the parts before and after it are counted as
`parts_hi`/`parts_lo` — a leading or trailing lone `:` is rejected, at least
one hextet must be skipped, and the surviving head and tail parts must be
valid hextets. -/
def ipv6PartsValid (parts : List Str) : Bool :=
  let interior := (parts.drop 1).dropLast
  match firstEmptyIdx interior with
  | none =>
    parts.length == 8 && !(parts.head?.getD []).isEmpty &&
    !(parts.getLast?.getD []).isEmpty && parts.all hextetValid
  | some j =>
    if 2 ≤ interior.countP (fun p => p.isEmpty) then false
    else
      let i := j + 1
      let n := parts.length
      let headEmpty := (parts.head?.getD []).isEmpty
      let lastEmpty := (parts.getLast?.getD []).isEmpty
      let hi := if headEmpty then i - 1 else i
      let lo := if lastEmpty then n - i - 2 else n - i - 1
      (!headEmpty || hi == 0) && (!lastEmpty || lo == 0) &&
      hi + lo + 1 ≤ 8 &&
      (parts.take hi).all hextetValid && (parts.drop (n - lo)).all hextetValid

/-- CPython `IPv6Address._ip_int_from_string`: non-empty, at least three
colon-separated parts, IPv4 suffix embedded, at most nine parts, then the
`::`/hextet analysis. -/
def ipv6AddrValid (addr : Str) : Bool :=
  !addr.isEmpty &&
  (let parts := splitOnChar ':' addr
   3 ≤ parts.length &&
   match ipv6PartsAfterEmbed parts with
   | none => false
   | some parts2 => parts2.length ≤ 9 && ipv6PartsValid parts2)

/-- CPython `IPv6Address.__init__` on a string: reject `/` anywhere, split off
a `%scope` suffix (which must be non-empty and `%`-free), and parse the
address part. -/
def ipv6Valid (s : Str) : Bool :=
  !s.contains '/' &&
  (match partitionAfterPercent s with
   | (addr, none) => ipv6AddrValid addr
   | (addr, some zone) => !zone.isEmpty && !zone.contains '%' && ipv6AddrValid addr)

/-- CPython `ipaddress.ip_address(s)` succeeding: the string parses as an
IPv4 or an IPv6 literal. -/
def is_ip_address (s : Str) : Bool := ipv4AddrValid s || ipv6Valid s

/-! ## The domain normalizer `_clean_domain` (source lines 33-39 and 155-177) -/

/-- `_HOST_PREFIXES` (lines 33-39), in source order. -/
def HOST_PREFIXES : List Str :=
  ["0.0.0.0".toList, "127.0.0.1".toList, "255.255.255.255".toList,
    "::".toList, "::1".toList]

/-- One iteration of the host-prefix loop (lines 163-165):
`domain = domain[len(prefix):].strip()` when the prefix matches. -/
def stripHostPfx (d : Str) (pfx : Str) : Str :=
  if pfx.isPrefixOf d then pyStrip (d.drop pfx.length) else d

/-- `_clean_domain` (lines 155-177): drop an inline comment, URL-decode and
trim; strip the null-route host prefixes, a leading `*.`, leading dots and a
trailing slash run; reject what is left when it is empty, starts with `#`, or
parses as an IP literal; otherwise lower-case it, drop trailing dots and
return it (or reject if that leaves nothing). -/
def clean_domain (raw : Str) : Option Str :=
  let domain := pyStrip (pyUnquote (raw.takeWhile (fun c => c ≠ '#')))
  if domain.isEmpty then none
  else
    let domain := HOST_PREFIXES.foldl stripHostPfx domain
    let domain := if (['*', '.'] : Str).isPrefixOf domain then domain.drop 2 else domain
    let domain := lstripWhile (fun c => c = '.') domain
    let domain := rstripWhile (fun c => c = '/') domain
    if domain.isEmpty || domain.head? == some '#' then none
    else if is_ip_address domain then none
    else
      let cleaned := rstripWhile (fun c => c = '.') (domain.map Char.toLower)
      if cleaned.isEmpty then none else some cleaned

/-! ## Helper lemmas about the string primitives -/

/-- A value seen through `head?` is a member. -/
theorem mem_of_head?_some {α : Type} {l : List α} {a : α} (h : l.head? = some a) : a ∈ l := by
  cases l with
  | nil => cases h
  | cons b t =>
    cases h
    exact List.mem_cons_self _ _

/-- A value seen through `getLast?` is a member. -/
theorem mem_of_getLast?_some {α : Type} {l : List α} {a : α} (h : l.getLast? = some a) :
    a ∈ l := by
  have h2 : l.reverse.head? = some a := by rw [List.head?_reverse]; exact h
  exact List.mem_reverse.mp (mem_of_head?_some h2)

/-- `dropWhile` is the identity when the head (if any) fails the predicate. -/
theorem dropWhile_eq_self_of_head {p : Char → Bool} {s : Str}
    (h : ∀ c, s.head? = some c → p c = false) : s.dropWhile p = s := by
  cases s with
  | nil => rfl
  | cons c t =>
    have hc := h c rfl
    simp [List.dropWhile, hc]

/-- The head of a `dropWhile` result fails the predicate. -/
theorem dropWhile_head_false {p : Char → Bool} {s : Str} {c : Char}
    (h : (s.dropWhile p).head? = some c) : p c = false := by
  induction s with
  | nil => cases h
  | cons a t ih =>
    by_cases hp : p a = true
    · rw [List.dropWhile_cons_of_pos hp] at h
      exact ih h
    · rw [List.dropWhile_cons_of_neg hp] at h
      cases h
      exact Bool.not_eq_true _ ▸ (Bool.eq_false_iff.mpr hp)

/-- `rstripWhile` is the identity when the last element (if any) fails the
predicate. -/
theorem rstripWhile_eq_self_of_getLast {p : Char → Bool} {s : Str}
    (h : ∀ c, s.getLast? = some c → p c = false) : rstripWhile p s = s := by
  unfold rstripWhile
  rw [dropWhile_eq_self_of_head, List.reverse_reverse]
  intro c hc
  exact h c (by rw [← List.head?_reverse]; exact hc)

/-- Elements of a `rstripWhile` result come from the original list. -/
theorem mem_of_mem_rstripWhile {p : Char → Bool} {s : Str} {c : Char}
    (h : c ∈ rstripWhile p s) : c ∈ s := by
  unfold rstripWhile at h
  rw [List.mem_reverse] at h
  exact List.mem_reverse.mp ((List.dropWhile_sublist p).mem h)

/-- The last element of a `rstripWhile` result fails the predicate. -/
theorem rstripWhile_getLast_false {p : Char → Bool} {s : Str} {c : Char}
    (h : (rstripWhile p s).getLast? = some c) : p c = false := by
  unfold rstripWhile at h
  rw [← List.head?_reverse, List.reverse_reverse] at h
  exact dropWhile_head_false h

/-- `pyStrip` is the identity on strings without whitespace. -/
theorem pyStrip_eq_self {s : Str} (h : ∀ c ∈ s, isSpaceB c = false) : pyStrip s = s := by
  unfold pyStrip lstripWhile
  rw [dropWhile_eq_self_of_head, rstripWhile_eq_self_of_getLast]
  · intro c hc
    exact h c (mem_of_getLast?_some hc)
  · intro c hc
    exact h c (mem_of_head?_some hc)

/-- Percent-decoding steps over a head that is not `%`. -/
theorem pyUnquote_cons_ne {c : Char} (rest : Str) (h : c ≠ '%') :
    pyUnquote (c :: rest) = c :: pyUnquote rest := by
  cases rest with
  | nil => simp [pyUnquote, h]
  | cons a t =>
    cases t with
    | nil => simp [pyUnquote, h]
    | cons b t2 => simp [pyUnquote, h]

/-- Percent-decoding is the identity on strings without `%`. -/
theorem pyUnquote_no_percent {s : Str} (h : ('%' : Char) ∉ s) : pyUnquote s = s := by
  induction s with
  | nil => rfl
  | cons c t ih =>
    have hc : c ≠ '%' := fun hcc => h (hcc ▸ List.mem_cons_self c t)
    rw [pyUnquote_cons_ne t hc, ih (fun hm => h (List.mem_cons_of_mem c hm))]

/-- `str.partition('%')` finds no separator in a `%`-free string. -/
theorem partitionAfterPercent_no_percent {s : Str} (h : ('%' : Char) ∉ s) :
    partitionAfterPercent s = (s, none) := by
  induction s with
  | nil => rfl
  | cons c t ih =>
    have hc : ¬ (c = '%') := fun hcc => h (hcc ▸ List.mem_cons_self c t)
    have ht := ih (fun hm => h (List.mem_cons_of_mem c hm))
    simp [partitionAfterPercent, hc, ht]

/-- The host-prefix loop is the identity when no prefix matches. -/
theorem foldl_stripHostPfx_eq_self {s : Str} {l : List Str}
    (h : ∀ pfx ∈ l, pfx.isPrefixOf s = false) : l.foldl stripHostPfx s = s := by
  induction l with
  | nil => rfl
  | cons pfx rest ih =>
    have h1 := h pfx (List.mem_cons_self _ _)
    have hstep : stripHostPfx s pfx = s := by
      unfold stripHostPfx
      simp [h1]
    rw [List.foldl_cons, hstep]
    exact ih (fun q hq => h q (List.mem_cons_of_mem _ hq))

/-- A matching non-empty `isPrefixOf` pins down the head. -/
theorem isPrefixOf_cons_head {a : Char} {pfx s : Str}
    (h : (a :: pfx).isPrefixOf s = true) : s.head? = some a := by
  cases s with
  | nil => cases h
  | cons b t =>
    have : a == b ∧ pfx.isPrefixOf t = true := by
      simpa [List.isPrefixOf] using h
    have hb : a = b := by
      have := this.1
      simpa using this
    rw [hb]
    rfl

/-! ## Helper lemmas about `splitOnChar` -/

/-- `splitOnChar` never returns the empty list of parts. -/
theorem splitOnChar_ne_nil (sep : Char) (s : Str) : splitOnChar sep s ≠ [] := by
  cases s with
  | nil => simp [splitOnChar]
  | cons c t =>
    unfold splitOnChar
    by_cases hc : c = sep
    · simp [hc]
    · simp only [hc, if_false]
      cases h : splitOnChar sep t <;> simp

/-- Shape of `splitOnChar` on a cons whose head is not the separator. -/
theorem splitOnChar_cons_ne (sep c : Char) (rest : Str) (h : ¬ (c = sep)) :
    ∃ p ps, splitOnChar sep rest = p :: ps ∧
      splitOnChar sep (c :: rest) = (c :: p) :: ps := by
  cases hr : splitOnChar sep rest with
  | nil => exact absurd hr (splitOnChar_ne_nil sep rest)
  | cons p ps =>
    refine ⟨p, ps, rfl, ?_⟩
    unfold splitOnChar
    simp [h, hr]

/-- Every character of a string is the separator or lies in some part. -/
theorem splitOnChar_char_cases (sep : Char) (s : Str) (c : Char) (hc : c ∈ s) :
    c = sep ∨ ∃ p ∈ splitOnChar sep s, c ∈ p := by
  induction s with
  | nil => cases hc
  | cons a t ih =>
    by_cases ha : a = sep
    · rcases List.mem_cons.mp hc with hca | hct
      · left; rw [hca, ha]
      · rcases ih hct with h1 | ⟨p, hp, hcp⟩
        · left; exact h1
        · right
          refine ⟨p, ?_, hcp⟩
          unfold splitOnChar
          simp only [ha, if_true]
          exact List.mem_cons_of_mem _ hp
    · obtain ⟨p, ps, hsplit, hsplit2⟩ := splitOnChar_cons_ne sep a t ha
      rcases List.mem_cons.mp hc with hca | hct
      · right
        exact ⟨a :: p, by rw [hsplit2]; exact List.mem_cons_self _ _, hca ▸ List.mem_cons_self _ _⟩
      · rcases ih hct with h1 | ⟨q, hq, hcq⟩
        · left; exact h1
        · right
          rw [hsplit] at hq
          rcases List.mem_cons.mp hq with hqp | hqs
          · exact ⟨a :: p, by rw [hsplit2]; exact List.mem_cons_self _ _,
              hqp ▸ List.mem_cons_of_mem _ hcq⟩
          · exact ⟨q, by rw [hsplit2]; exact List.mem_cons_of_mem _ hqs, hcq⟩

/-! ## Index bookkeeping for the IPv6 part analysis -/

/-- Equal indices select equal elements. -/
theorem getElem_congr_idx {l : List Str} {a b : Nat} (h : a = b) (ha : a < l.length) :
    l[a] = l[b] := by
  subst h
  rfl

/-- Indexing below `m` lands inside `take m`. -/
theorem mem_take_of_getElem {l : List Str} {m k : Nat} (hk : k < l.length) (hkm : k < m) :
    l[k] ∈ l.take m := by
  have hlt : k < (l.take m).length := by
    rw [List.length_take]; omega
  have e : (l.take m)[k] = l[k] := List.getElem_take l
  rw [← e]
  exact List.getElem_mem _

/-- Indexing at or above `m` lands inside `drop m`. -/
theorem mem_drop_of_getElem {l : List Str} {m k : Nat} (hk : k < l.length) (hkm : m ≤ k) :
    l[k] ∈ l.drop m := by
  have hlt : k - m < (l.drop m).length := by rw [List.length_drop]; omega
  have e : (l.drop m)[k - m] = l[m + (k - m)] := List.getElem_drop l
  have e2 : m + (k - m) = k := by omega
  rw [getElem_congr_idx e2.symm hk, ← e]
  exact List.getElem_mem _

/-- A non-empty list's defaulted `head?` is its element 0. -/
theorem head_getD_eq_getElem {l : List Str} (h : 0 < l.length) :
    l.head?.getD [] = l[0] := by
  cases l with
  | nil => simp at h
  | cons a t => rfl

/-- A non-empty list's defaulted `getLast?` is its last element. -/
theorem getLast_getD_eq_getElem {l : List Str} (h : 0 < l.length) :
    l.getLast?.getD [] = l[l.length - 1] := by
  have hb : l.length - 1 < l.length := by omega
  rw [List.getLast?_eq_getElem?, List.getElem?_eq_getElem hb]
  rfl

/-- `firstEmptyIdx` returns a valid index of an empty part. -/
theorem firstEmptyIdx_spec (l : List Str) (j : Nat) (h : firstEmptyIdx l = some j) :
    ∃ hj : j < l.length, l[j] = [] := by
  induction l generalizing j with
  | nil => cases h
  | cons p rest ih =>
    unfold firstEmptyIdx at h
    by_cases hp : p.isEmpty = true
    · rw [if_pos hp] at h
      cases h
      exact ⟨Nat.succ_pos _, List.isEmpty_iff.mp hp⟩
    · rw [if_neg hp] at h
      cases hfi : firstEmptyIdx rest with
      | none => rw [hfi] at h; cases h
      | some j2 =>
        rw [hfi] at h
        simp only [Option.map_some'] at h
        cases h
        obtain ⟨hj2, hval⟩ := ih j2 hfi
        exact ⟨Nat.succ_lt_succ hj2, hval⟩

/-- Every part examined by `ipv6PartsValid` is empty or a valid hextet: the
checker looks at `parts.take parts_hi` and the last `parts_lo` parts, and the
`::` bookkeeping forces every part in between to be empty. -/
theorem ipv6PartsValid_covered (parts : List Str) (hv : ipv6PartsValid parts = true) :
    ∀ p ∈ parts, p = [] ∨ hextetValid p = true := by
  intro p hp
  obtain ⟨k, hk, hpk⟩ := List.mem_iff_getElem.mp hp
  unfold ipv6PartsValid at hv
  dsimp only at hv
  cases hidx : firstEmptyIdx ((parts.drop 1).dropLast) with
  | none =>
    rw [hidx] at hv
    have hall : ∀ x ∈ parts, hextetValid x = true := by
      simp only [Bool.and_eq_true, List.all_eq_true] at hv
      tauto
    exact Or.inr (hall p hp)
  | some j =>
    rw [hidx] at hv
    dsimp only at hv
    by_cases hcnt : 2 ≤ ((parts.drop 1).dropLast).countP (fun q => q.isEmpty)
    · rw [if_pos hcnt] at hv
      exact absurd hv (by simp)
    · rw [if_neg hcnt] at hv
      simp only [Bool.and_eq_true] at hv
      obtain ⟨⟨⟨⟨hA, hB⟩, hC⟩, hD⟩, hE⟩ := hv
      obtain ⟨hj, hval⟩ := firstEmptyIdx_spec _ j hidx
      have hjlen : j < parts.length - 2 := by
        have h2 := hj
        rw [List.length_dropLast, List.length_drop] at h2
        omega
      have hn3 : 3 ≤ parts.length := by omega
      have hj3 : j + 1 < parts.length := by omega
      have hpj : parts[j + 1] = [] := by
        have hdl : j < (parts.drop 1).length := by
          rw [List.length_drop]; omega
        have e1 : ((parts.drop 1).dropLast)[j] = (parts.drop 1)[j] :=
          List.getElem_dropLast _ _ hj
        have e2 : (parts.drop 1)[j] = parts[1 + j] := List.getElem_drop parts
        rw [e1, e2] at hval
        rw [getElem_congr_idx (by omega : j + 1 = 1 + j) hj3]
        exact hval
      have hn0 : 0 < parts.length := by omega
      by_cases hHead : (parts.head?.getD []).isEmpty = true
      · have hp0 : parts[0] = [] := by
          rw [head_getD_eq_getElem hn0] at hHead
          exact List.isEmpty_iff.mp hHead
        have hj0 : j + 1 - 1 = 0 := by
          rw [if_pos hHead, hHead] at hA
          simpa using hA
        rw [if_pos hHead] at hD
        have h4 := List.all_eq_true.mp hD
        by_cases hLast : (parts.getLast?.getD []).isEmpty = true
        · have hpl : parts[parts.length - 1] = [] := by
            rw [getLast_getD_eq_getElem hn0] at hLast
            exact List.isEmpty_iff.mp hLast
          have hl0 : parts.length - (j + 1) - 2 = 0 := by
            rw [if_pos hLast, hLast] at hB
            simpa using hB
          rw [if_pos hLast] at hE
          have h5 := List.all_eq_true.mp hE
          rcases Nat.lt_or_ge k (j + 1 - 1) with hk1 | hk1
          · exact Or.inr (hpk ▸ h4 _ (mem_take_of_getElem hk hk1))
          rcases Nat.lt_or_ge k
              (parts.length - (parts.length - (j + 1) - 2)) with hk2 | hk2
          · left
            rw [← hpk]
            rcases (by omega : k = 0 ∨ k = j + 1 ∨ k = parts.length - 1) with h | h | h
            · rw [getElem_congr_idx h hk]; exact hp0
            · rw [getElem_congr_idx h hk]; exact hpj
            · rw [getElem_congr_idx h hk]; exact hpl
          · exact Or.inr (hpk ▸ h5 _ (mem_drop_of_getElem hk hk2))
        · rw [if_neg hLast] at hE
          have h5 := List.all_eq_true.mp hE
          rcases Nat.lt_or_ge k (j + 1 - 1) with hk1 | hk1
          · exact Or.inr (hpk ▸ h4 _ (mem_take_of_getElem hk hk1))
          rcases Nat.lt_or_ge k
              (parts.length - (parts.length - (j + 1) - 1)) with hk2 | hk2
          · left
            rw [← hpk]
            rcases (by omega : k = 0 ∨ k = j + 1) with h | h
            · rw [getElem_congr_idx h hk]; exact hp0
            · rw [getElem_congr_idx h hk]; exact hpj
          · exact Or.inr (hpk ▸ h5 _ (mem_drop_of_getElem hk hk2))
      · rw [if_neg hHead] at hD
        have h4 := List.all_eq_true.mp hD
        by_cases hLast : (parts.getLast?.getD []).isEmpty = true
        · have hpl : parts[parts.length - 1] = [] := by
            rw [getLast_getD_eq_getElem hn0] at hLast
            exact List.isEmpty_iff.mp hLast
          have hl0 : parts.length - (j + 1) - 2 = 0 := by
            rw [if_pos hLast, hLast] at hB
            simpa using hB
          rw [if_pos hLast] at hE
          have h5 := List.all_eq_true.mp hE
          rcases Nat.lt_or_ge k (j + 1) with hk1 | hk1
          · exact Or.inr (hpk ▸ h4 _ (mem_take_of_getElem hk hk1))
          rcases Nat.lt_or_ge k
              (parts.length - (parts.length - (j + 1) - 2)) with hk2 | hk2
          · left
            rw [← hpk]
            rcases (by omega : k = j + 1 ∨ k = parts.length - 1) with h | h
            · rw [getElem_congr_idx h hk]; exact hpj
            · rw [getElem_congr_idx h hk]; exact hpl
          · exact Or.inr (hpk ▸ h5 _ (mem_drop_of_getElem hk hk2))
        · rw [if_neg hLast] at hE
          have h5 := List.all_eq_true.mp hE
          rcases Nat.lt_or_ge k (j + 1) with hk1 | hk1
          · exact Or.inr (hpk ▸ h4 _ (mem_take_of_getElem hk hk1))
          rcases Nat.lt_or_ge k
              (parts.length - (parts.length - (j + 1) - 1)) with hk2 | hk2
          · left
            rw [← hpk]
            rw [getElem_congr_idx (by omega : k = j + 1) hk]
            exact hpj
          · exact Or.inr (hpk ▸ h5 _ (mem_drop_of_getElem hk hk2))

/-! ## Character-set facts about IP literals -/

/-- The characters a zone-free IP literal can contain. -/
def ipChar (c : Char) : Bool := isHexDigitB c || c = ':' || c = '.'

/-- Valid hextets consist of hexadecimal digits. -/
theorem hextetValid_chars {p : Str} (h : hextetValid p = true) {c : Char} (hc : c ∈ p) :
    isHexDigitB c = true := by
  unfold hextetValid at h
  simp only [Bool.and_eq_true, List.all_eq_true] at h
  exact h.1.1 c hc

/-- Valid octets consist of decimal digits. -/
theorem octetValid_chars {p : Str} (h : octetValid p = true) {c : Char} (hc : c ∈ p) :
    c.isDigit = true := by
  unfold octetValid at h
  simp only [Bool.and_eq_true, List.all_eq_true] at h
  exact h.1.1.1.2 c hc

/-- A valid IPv4 literal consists of digits and dots. -/
theorem ipv4_chars {s : Str} (hv : ipv4AddrValid s = true) {c : Char} (hc : c ∈ s) :
    c.isDigit = true ∨ c = '.' := by
  unfold ipv4AddrValid at hv
  simp only [Bool.and_eq_true, List.all_eq_true] at hv
  rcases splitOnChar_char_cases '.' s c hc with h1 | ⟨p, hp, hcp⟩
  · exact Or.inr h1
  · exact Or.inl (octetValid_chars (hv.2.2 p hp) hcp)

/-- Every colon-separated part of a valid IPv6 address is empty, a valid
hextet, or (for an embedded suffix) a valid IPv4 literal. -/
theorem ipv6AddrValid_parts {addr : Str} (hv : ipv6AddrValid addr = true) :
    ∀ p ∈ splitOnChar ':' addr,
      p = [] ∨ hextetValid p = true ∨ ipv4AddrValid p = true := by
  intro p hp
  unfold ipv6AddrValid at hv
  simp only [Bool.and_eq_true] at hv
  obtain ⟨hne2, hlen, hmatch⟩ := hv
  cases hembed : ipv6PartsAfterEmbed (splitOnChar ':' addr) with
  | none =>
    rw [hembed] at hmatch
    exact absurd hmatch (by simp)
  | some parts2 =>
    rw [hembed] at hmatch
    dsimp only at hmatch
    simp only [Bool.and_eq_true] at hmatch
    have hcov := ipv6PartsValid_covered parts2 hmatch.2
    unfold ipv6PartsAfterEmbed at hembed
    have hsne : splitOnChar ':' addr ≠ [] := splitOnChar_ne_nil ':' addr
    cases hlast : (splitOnChar ':' addr).getLast? with
    | none => rw [hlast] at hembed; cases hembed
    | some last =>
      rw [hlast] at hembed
      dsimp only at hembed
      have hlasteq : last = (splitOnChar ':' addr).getLast hsne := by
        have := List.getLast?_eq_getLast _ hsne
        rw [hlast] at this
        exact Option.some.inj this
      have hdecomp := List.dropLast_append_getLast hsne
      by_cases hdotl : last.contains '.' = true
      · by_cases hip4 : ipv4AddrValid last = true
        · rw [if_pos hdotl, if_pos hip4] at hembed
          have hp2 : parts2 = (splitOnChar ':' addr).dropLast ++
              [Nat.toDigits 16 (ipv4Value last / 65536),
                Nat.toDigits 16 (ipv4Value last % 65536)] :=
            (Option.some.inj hembed).symm
          rw [← hdecomp] at hp
          rcases List.mem_append.mp hp with hpd | hpl
          · have : p ∈ parts2 := by
              rw [hp2]
              exact List.mem_append_left _ hpd
            rcases hcov p this with h | h
            · exact Or.inl h
            · exact Or.inr (Or.inl h)
          · have : p = last := by
              rw [hlasteq]
              simpa using hpl
            rw [this]
            exact Or.inr (Or.inr hip4)
        · rw [if_pos hdotl, if_neg hip4] at hembed
          cases hembed
      · rw [if_neg hdotl] at hembed
        have hp2 : parts2 = splitOnChar ':' addr := (Option.some.inj hembed).symm
        rcases hcov p (hp2 ▸ hp) with h | h
        · exact Or.inl h
        · exact Or.inr (Or.inl h)

/-- Decimal digits are hexadecimal digits. -/
theorem isDigit_isHexDigitB {c : Char} (h : c.isDigit = true) : isHexDigitB c = true := by
  simp [isHexDigitB, h]

/-- A valid, `%`-free IPv6 literal consists of hexadecimal digits, colons and
dots. -/
theorem ipv6Valid_chars {s : Str} (hv : ipv6Valid s = true) (hnp : ('%' : Char) ∉ s)
    {c : Char} (hc : c ∈ s) : ipChar c = true := by
  unfold ipv6Valid at hv
  rw [partitionAfterPercent_no_percent hnp] at hv
  dsimp only at hv
  simp only [Bool.and_eq_true] at hv
  have haddr : ipv6AddrValid s = true := hv.2
  rcases splitOnChar_char_cases ':' s c hc with h1 | ⟨p, hp, hcp⟩
  · simp [ipChar, h1]
  · rcases ipv6AddrValid_parts haddr p hp with h2 | h2 | h2
    · rw [h2] at hcp; cases hcp
    · exact Or.elim (Or.inl (hextetValid_chars h2 hcp)) (by simp [ipChar]; tauto)
        (by simp [ipChar]; tauto)
    · rcases ipv4_chars h2 hcp with h3 | h3
      · simp [ipChar, isDigit_isHexDigitB h3]
      · simp [ipChar, h3]

/-- A valid, `%`-free IP literal consists of hexadecimal digits, colons and
dots. -/
theorem is_ip_chars {s : Str} (hv : is_ip_address s = true) (hnp : ('%' : Char) ∉ s)
    {c : Char} (hc : c ∈ s) : ipChar c = true := by
  unfold is_ip_address at hv
  have hv2 : ipv4AddrValid s = true ∨ ipv6Valid s = true := by simpa using hv
  rcases hv2 with h4 | h6
  · rcases ipv4_chars h4 hc with h | h
    · simp [ipChar, isDigit_isHexDigitB h]
    · simp [ipChar, h]
  · exact ipv6Valid_chars h6 hnp hc

/-- IP-literal characters are not whitespace. -/
theorem ipChar_not_space {c : Char} (h : ipChar c = true) : isSpaceB c = false := by
  cases hs : isSpaceB c
  · rfl
  · exfalso
    have hw : ((c = ' ' ∨ c = '\t') ∨ c = '\r') ∨ c = '\n' := by
      simpa [isSpaceB, Char.isWhitespace] using hs
    rcases hw with ((h1 | h1) | h1) | h1 <;> subst h1 <;> exact absurd h (by decide)

/-- An IPv4 literal cannot start with a dot (empty first octet). -/
theorem ipv4AddrValid_cons_dot (t : Str) : ipv4AddrValid ('.' :: t) = false := by
  cases h : ipv4AddrValid ('.' :: t)
  · rfl
  · exfalso
    unfold ipv4AddrValid at h
    simp only [Bool.and_eq_true, List.all_eq_true] at h
    have hsplit : splitOnChar '.' ('.' :: t) = [] :: splitOnChar '.' t := by
      conv_lhs => unfold splitOnChar
      simp
    have hall := h.2.2
    rw [hsplit] at hall
    have := hall [] (List.mem_cons_self _ _)
    exact absurd this (by decide)

/-- A hextet cannot start with a dot. -/
theorem hextetValid_cons_dot (t : Str) : hextetValid ('.' :: t) = false := by
  cases h : hextetValid ('.' :: t)
  · rfl
  · exact absurd (hextetValid_chars h (List.mem_cons_self '.' t)) (by decide)

/-- A valid IP literal is non-empty. -/
theorem is_ip_ne_nil {s : Str} (hv : is_ip_address s = true) : s ≠ [] := by
  intro h
  subst h
  exact absurd hv (by decide)

/-- A valid, `%`-free IP literal does not start with a dot. -/
theorem is_ip_head_ne_dot {s : Str} (hv : is_ip_address s = true)
    (hnp : ('%' : Char) ∉ s) : s.head? ≠ some '.' := by
  intro hhead
  cases s with
  | nil => cases hhead
  | cons a t =>
    have ha : a = '.' := Option.some.inj hhead
    subst ha
    unfold is_ip_address at hv
    have hv2 : ipv4AddrValid ('.' :: t) = true ∨ ipv6Valid ('.' :: t) = true := by
      simpa using hv
    rcases hv2 with h4 | h6
    · rw [ipv4AddrValid_cons_dot] at h4
      exact Bool.false_ne_true h4
    · unfold ipv6Valid at h6
      rw [partitionAfterPercent_no_percent hnp] at h6
      dsimp only at h6
      simp only [Bool.and_eq_true] at h6
      have haddr := h6.2
      obtain ⟨p, ps, hsp, hsp2⟩ := splitOnChar_cons_ne ':' '.' t (by decide)
      have hmem : ('.' :: p) ∈ splitOnChar ':' ('.' :: t) := by
        rw [hsp2]
        exact List.mem_cons_self _ _
      rcases ipv6AddrValid_parts haddr _ hmem with h | h | h
      · exact List.cons_ne_nil _ _ h
      · rw [hextetValid_cons_dot] at h
        exact Bool.false_ne_true h
      · rw [ipv4AddrValid_cons_dot] at h
        exact Bool.false_ne_true h

/-! ## Claim C2: IP literals and the normalizer -/

/-- C2 counterexample: `"::1"` parses as a valid IPv6 literal, yet
`_clean_domain("::1")` strips the `"::"` null-route host prefix first and
returns the domain `"1"` instead of rejecting — an IP literal can yield a
domain. -/
theorem c2_counterexample :
    is_ip_address "::1".toList = true ∧
    clean_domain "::1".toList = some "1".toList := by
  constructor
  · decide
  · decide

/-- C2 (amended): for every input that parses as a valid IPv4 or IPv6 literal,
contains no `%` (IPv6 zone identifiers are written with `%`), and does not
start with one of the null-route host prefixes (`0.0.0.0`, `127.0.0.1`,
`255.255.255.255`, `::`, `::1`), `_clean_domain` rejects it; IP literals
starting with a host prefix are prefix-stripped first and may yield a domain,
as `"::1" ↦ "1"` shows. -/
theorem c2_ip_literals_rejected (s : Str) (hip : is_ip_address s = true)
    (hnp : ('%' : Char) ∉ s)
    (hpfx : ∀ pfx ∈ HOST_PREFIXES, pfx.isPrefixOf s = false) :
    clean_domain s = none := by
  have hchars : ∀ c ∈ s, ipChar c = true := fun c hc => is_ip_chars hip hnp hc
  have hne : s ≠ [] := is_ip_ne_nil hip
  have hnospace : ∀ c ∈ s, isSpaceB c = false := fun c hc => ipChar_not_space (hchars c hc)
  have htake : s.takeWhile (fun c => c ≠ '#') = s := by
    rw [List.takeWhile_eq_self_iff]
    intro c hc
    have hipc := hchars c hc
    have : c ≠ '#' := by
      intro hcc
      subst hcc
      exact absurd hipc (by decide)
    simpa using this
  have hunq : pyUnquote s = s := pyUnquote_no_percent hnp
  have hstrip : pyStrip s = s := pyStrip_eq_self hnospace
  have hfold : HOST_PREFIXES.foldl stripHostPfx s = s := foldl_stripHostPfx_eq_self hpfx
  have hstar : (['*', '.'] : Str).isPrefixOf s = false := by
    cases hsp : (['*', '.'] : Str).isPrefixOf s
    · rfl
    · exfalso
      have hh := isPrefixOf_cons_head hsp
      have hmem : '*' ∈ s := mem_of_head?_some hh
      exact absurd (hchars _ hmem) (by decide)
  have hdotl : lstripWhile (fun c => c = '.') s = s := by
    unfold lstripWhile
    apply dropWhile_eq_self_of_head
    intro c hc
    have : c ≠ '.' := fun hcc => (is_ip_head_ne_dot hip hnp) (hcc ▸ hc)
    exact decide_eq_false this
  have hslash : rstripWhile (fun c => c = '/') s = s := by
    apply rstripWhile_eq_self_of_getLast
    intro c hc
    have hcm : c ∈ s := mem_of_getLast?_some hc
    have : c ≠ '/' := by
      intro hcc
      subst hcc
      exact absurd (hchars _ hcm) (by decide)
    exact decide_eq_false this
  have hieF : s.isEmpty = false := by
    cases s with
    | nil => exact absurd rfl hne
    | cons a t => rfl
  have hhash : (s.head? == some '#') = false := by
    apply beq_eq_false_iff_ne.mpr
    intro hh
    have hmem : '#' ∈ s := mem_of_head?_some hh
    exact absurd (hchars _ hmem) (by decide)
  simp only [clean_domain, htake, hunq, hstrip, hfold, hstar, hdotl, hslash, hieF,
    hhash, hip, Bool.false_eq_true, if_false, Bool.or_self, if_true]

/-- C2 witness: the amended statement evaluated at `"8.8.8.8"`. -/
theorem c2_ip_literals_rejected_witness :
    clean_domain "8.8.8.8".toList = none :=
  c2_ip_literals_rejected "8.8.8.8".toList (by decide) (by decide) (by decide)

/-! ## Claim C8: idempotence of the normalizer -/

/-- `Char.ofNat` round-trips through `toNat` on valid code points. -/
theorem char_ofNat_toNat (n : Nat) (h : Nat.isValidChar n) : (Char.ofNat n).toNat = n := by
  simp [Char.ofNat, h]
  rfl

/-- `Char.toLower` is idempotent. -/
theorem toLower_idem (c : Char) : Char.toLower (Char.toLower c) = Char.toLower c := by
  show Char.toLower (let n := c.toNat; if n ≥ 65 ∧ n ≤ 90 then Char.ofNat (n + 32) else c)
      = (let n := c.toNat; if n ≥ 65 ∧ n ≤ 90 then Char.ofNat (n + 32) else c)
  by_cases h : c.toNat ≥ 65 ∧ c.toNat ≤ 90
  · simp only [h, if_pos]
    show Char.toLower (Char.ofNat (c.toNat + 32)) = Char.ofNat (c.toNat + 32)
    have hv : Nat.isValidChar (c.toNat + 32) := Or.inl (by omega)
    have ht : (Char.ofNat (c.toNat + 32)).toNat = c.toNat + 32 := char_ofNat_toNat _ hv
    show (let n := (Char.ofNat (c.toNat + 32)).toNat;
          if n ≥ 65 ∧ n ≤ 90 then Char.ofNat (n + 32) else Char.ofNat (c.toNat + 32))
        = Char.ofNat (c.toNat + 32)
    rw [ht]
    have hno : ¬ (c.toNat + 32 ≥ 65 ∧ c.toNat + 32 ≤ 90) := by omega
    rw [if_neg hno]
  · simp only [h, if_neg, if_false]
    show Char.toLower c = c
    show (let n := c.toNat; if n ≥ 65 ∧ n ≤ 90 then Char.ofNat (n + 32) else c) = c
    simp [h]

/-- Characters surviving `rstripWhile` after a `map Char.toLower` are
lower-case fixed points, so the map is the identity on the result. -/
theorem rstrip_dot_map_toLower_lower (x : Str) :
    (rstripWhile (fun c => c = '.') (x.map Char.toLower)).map Char.toLower =
      rstripWhile (fun c => c = '.') (x.map Char.toLower) := by
  have hfix : ∀ c ∈ rstripWhile (fun c => c = '.') (x.map Char.toLower),
      Char.toLower c = c := by
    intro c hc
    obtain ⟨y, hy, hyc⟩ := List.mem_map.mp (mem_of_mem_rstripWhile hc)
    rw [← hyc]
    exact toLower_idem y
  calc (rstripWhile (fun c => c = '.') (x.map Char.toLower)).map Char.toLower
      = (rstripWhile (fun c => c = '.') (x.map Char.toLower)).map id :=
        List.map_congr_left hfix
    _ = rstripWhile (fun c => c = '.') (x.map Char.toLower) := List.map_id _

/-- Stripping trailing dots leaves no trailing dot. -/
theorem rstrip_dot_getLast (y : Str) :
    (rstripWhile (fun c => c = '.') y).getLast? ≠ some '.' := by
  intro h
  have h2 := rstripWhile_getLast_false h
  simp at h2

/-- What every `_clean_domain` output looks like: non-empty, already
lower-case, and without a trailing dot. -/
theorem clean_domain_image {raw d : Str} (h : clean_domain raw = some d) :
    d ≠ [] ∧ d.map Char.toLower = d ∧ d.getLast? ≠ some '.' := by
  unfold clean_domain at h
  dsimp only at h
  generalize pyStrip (pyUnquote (List.takeWhile (fun c => decide (c ≠ '#')) raw)) = dom0 at h
  generalize List.foldl stripHostPfx dom0 HOST_PREFIXES = dom1 at h
  generalize (if List.isPrefixOf ['*', '.'] dom1 = true then List.drop 2 dom1 else dom1) =
    dom2 at h
  generalize lstripWhile (fun c => decide (c = '.')) dom2 = dom3 at h
  generalize rstripWhile (fun c => decide (c = '/')) dom3 = dom4 at h
  split at h
  · exact Option.noConfusion h
  · split at h
    · exact Option.noConfusion h
    · split at h
      · exact Option.noConfusion h
      · split at h
        · exact Option.noConfusion h
        · rename_i hcle
          have hd : d = rstripWhile (fun c => c = '.') (dom4.map Char.toLower) :=
            (Option.some.inj h).symm
          refine ⟨?_, ?_, ?_⟩
          · intro hnil
            apply hcle
            rw [← hd, hnil]
            rfl
          · rw [hd]
            exact rstrip_dot_map_toLower_lower _
          · rw [hd]
            exact rstrip_dot_getLast _

/-- C8 counterexample: `"8.8.8.8"` is a `_clean_domain` output (produced from
the input `"8.8.8.8."`), yet running the normalizer on it again yields `None`
rather than the same string — the normalizer is not idempotent on its own
outputs. -/
theorem c8_counterexample :
    clean_domain "8.8.8.8.".toList = some "8.8.8.8".toList ∧
    clean_domain "8.8.8.8".toList = none := by
  constructor
  · decide
  · decide

/-- C8 (amended): `_clean_domain` is idempotent on those of its outputs that
survive its own pre-processing unchanged: an output `d` containing no
whitespace, `%` or `#`, not starting with a null-route host prefix, `*.` or a
dot, not ending in `/`, and not parsing as an IP literal satisfies
`_clean_domain(d) = d`.  (Each hypothesis is forced by a counterexample:
outputs such as `"8.8.8.8"` from `"8.8.8.8."`, `"::x"` from `"::::x"`, or
`"*.x"` from `"*.*.x"` are changed by a second pass.) -/
theorem c8_clean_domain_idempotent (raw d : Str) (h : clean_domain raw = some d)
    (hns : ∀ c ∈ d, isSpaceB c = false)
    (hnp : ('%' : Char) ∉ d) (hnh : ('#' : Char) ∉ d)
    (hpfx : ∀ pfx ∈ HOST_PREFIXES, pfx.isPrefixOf d = false)
    (hstar : (['*', '.'] : Str).isPrefixOf d = false)
    (hdot : d.head? ≠ some '.')
    (hslash : d.getLast? ≠ some '/')
    (hip : is_ip_address d = false) :
    clean_domain d = some d := by
  obtain ⟨hne, hlower, hlastdot⟩ := clean_domain_image h
  have htake : d.takeWhile (fun c => c ≠ '#') = d := by
    rw [List.takeWhile_eq_self_iff]
    intro c hc
    have : c ≠ '#' := fun hcc => hnh (hcc ▸ hc)
    simpa using this
  have hunq : pyUnquote d = d := pyUnquote_no_percent hnp
  have hstrip : pyStrip d = d := pyStrip_eq_self hns
  have hfold : HOST_PREFIXES.foldl stripHostPfx d = d := foldl_stripHostPfx_eq_self hpfx
  have hdotl : lstripWhile (fun c => c = '.') d = d := by
    unfold lstripWhile
    apply dropWhile_eq_self_of_head
    intro c hc
    have : c ≠ '.' := fun hcc => hdot (hcc ▸ hc)
    exact decide_eq_false this
  have hslashr : rstripWhile (fun c => c = '/') d = d := by
    apply rstripWhile_eq_self_of_getLast
    intro c hc
    have : c ≠ '/' := fun hcc => hslash (hcc ▸ hc)
    exact decide_eq_false this
  have hieF : d.isEmpty = false := by
    cases d with
    | nil => exact absurd rfl hne
    | cons a t => rfl
  have hhash : (d.head? == some '#') = false := by
    apply beq_eq_false_iff_ne.mpr
    intro hh
    exact hnh (mem_of_head?_some hh)
  have hrdot : rstripWhile (fun c => c = '.') d = d := by
    apply rstripWhile_eq_self_of_getLast
    intro c hc
    have : c ≠ '.' := fun hcc => hlastdot (hcc ▸ hc)
    exact decide_eq_false this
  simp only [clean_domain, htake, hunq, hstrip, hfold, hstar, hdotl, hslashr, hieF,
    hhash, hip, hlower, hrdot, Bool.false_eq_true, if_false, Bool.or_self, if_true]

/-- C8 witness: the amended idempotence at `"example.com"` (an output of the
normalizer for the input `"example.com"` itself). -/
theorem c8_clean_domain_idempotent_witness :
    clean_domain "example.com".toList = some "example.com".toList :=
  c8_clean_domain_idempotent "example.com".toList "example.com".toList (by decide)
    (by decide) (by decide) (by decide) (by decide) (by decide) (by decide)
    (by decide) (by decide)

end UpdateDomains
